import Mathlib

/-!
Shallow embedding of the multiproc process supervisor (Go) for checking its
natural-language specification.

Source layout:
* `renderer/state.go` — `ProcessState`, `ApplyEvent`, `ExitCodeFromStates`.
* engine (`engine.go` / `run.go`) — `ProcessLine`, `streamReader`,
  `handleGracefulShutdown`, `runProcess`, `Engine.Run`.

Go `error` values are modelled by `Option GoErr` (`none` = `nil`); machine
integers by `Int` (no overflow is reachable in these algorithms); byte
strings by `String` / `List Char`, with `len` modelled as the UTF-8 byte
size in line-buffer accounting.
-/

/-- Model of the Go error values this code base distinguishes:
`context.Canceled`, `io.EOF`, and everything else identified by its
rendered message (`%v`). -/
inductive GoErr where
  | canceled
  | eof
  | msg (s : String)
deriving DecidableEq, Repr, Inhabited

/-- The string `fmt` produces for an error via the `%v` verb. -/
def GoErr.toMessage : GoErr → String
  | .canceled => "context canceled"
  | .eof => "EOF"
  | .msg s => s

/-- Model of `fmt.Errorf("<pre>: %w", err)`: only the rendered message is
kept, which is all the renderer and the exit-code rule observe. -/
def wrapErr (pre : String) (e : GoErr) : GoErr :=
  .msg (pre ++ ": " ++ e.toMessage)

/-- Go `len` on a string: its UTF-8 byte size, as an `Int`. -/
def goLen (s : String) : Int :=
  (s.utf8ByteSize : Int)

/-- `renderer.ProcessState` (renderer/state.go): renderable state of one
supervised process. -/
structure ProcessState where
  Err : Option GoErr := none
  Name : String := ""
  Lines : List String := []
  ByteSize : Int := 0
  MaxLines : Int := 0
  MaxBytes : Int := 0
  Done : Bool := false
  Running : Bool := false
  Dirty : Bool := false
deriving DecidableEq, Repr, Inhabited

/-- `renderer.Event` (renderer/state.go): the tagged union of renderer
events, `lineEvent {Line, Index}` and `doneEvent {Err, Index}`. The Go
`Index` field is a signed `int`, so it is modelled as `Int`. -/
inductive Event where
  | lineEvent (Line : String) (Index : Int)
  | doneEvent (Err : Option GoErr) (Index : Int)
deriving DecidableEq, Repr

/-- The process index carried by a renderer event. -/
def Event.index : Event → Int
  | .lineEvent _ i => i
  | .doneEvent _ i => i

/-- The eviction loop of `ApplyEvent` (renderer/state.go, the `for` loop):
while the line cap or the byte cap is exceeded and the buffer is
non-empty, drop the oldest line and subtract its byte length. -/
def evictLoop (maxLines maxBytes : Int) : List String → Int → List String × Int
  | [], byteSize => ([], byteSize)
  | oldest :: rest, byteSize =>
    if (maxLines > 0 ∧ ((oldest :: rest).length : Int) > maxLines) ∨
       (maxBytes > 0 ∧ byteSize > maxBytes) then
      evictLoop maxLines maxBytes rest (byteSize - goLen oldest)
    else (oldest :: rest, byteSize)

/-- The `lineEvent` branch of `ApplyEvent` acting on the addressed state:
append the line, add its byte length, run the eviction loop, mark dirty. -/
def applyLine (ps : ProcessState) (l : String) : ProcessState :=
  let r := evictLoop ps.MaxLines ps.MaxBytes (ps.Lines ++ [l]) (ps.ByteSize + goLen l)
  { ps with Lines := r.1, ByteSize := r.2, Dirty := true }

/-- The `doneEvent` branch of `ApplyEvent` acting on the addressed state:
set `Done`, clear `Running`, overwrite `Err`, mark dirty. -/
def applyDone (ps : ProcessState) (e : Option GoErr) : ProcessState :=
  { ps with Done := true, Running := false, Err := e, Dirty := true }

/-- `renderer.ApplyEvent` (renderer/state.go): update the states slice by
one event; events whose index is `< 0` or `≥ len(states)` are ignored. -/
def ApplyEvent (states : List ProcessState) : Event → List ProcessState
  | .lineEvent l i =>
    if i < 0 ∨ (states.length : Int) ≤ i then states
    else states.set i.toNat (applyLine (states.getD i.toNat default) l)
  | .doneEvent e i =>
    if i < 0 ∨ (states.length : Int) ≤ i then states
    else states.set i.toNat (applyDone (states.getD i.toNat default) e)

/-- `renderer.ExitCodeFromStates` (renderer/state.go): 1 if any state has a
non-nil `Err`, else 0. -/
def ExitCodeFromStates : List ProcessState → Int
  | [] => 0
  | ps :: rest => if ps.Err ≠ none then 1 else ExitCodeFromStates rest

/-- Sum of the Go byte lengths of the retained lines. -/
def sumBytes (lines : List String) : Int :=
  (lines.map goLen).sum

/-- Representation invariant of a buffer: the `ByteSize` field is the byte
total of the retained lines. It holds of the documented initial state
(`Lines = nil`, `ByteSize = 0`). -/
def Accounting (ps : ProcessState) : Prop :=
  ps.ByteSize = sumBytes ps.Lines

/-- The dual-constraint retention invariant of a buffer: a positive line
cap bounds the number of retained lines and a positive byte cap bounds the
byte total of the retained lines. -/
def CapInvariant (ps : ProcessState) : Prop :=
  (ps.MaxLines > 0 → (ps.Lines.length : Int) ≤ ps.MaxLines) ∧
  (ps.MaxBytes > 0 → sumBytes ps.Lines ≤ ps.MaxBytes)

example : (applyLine { MaxLines := 3 } "ab").Lines = ["ab"] := by decide
example :
    (List.foldl applyLine { MaxLines := 3 } ["l1", "l2", "l3", "l4", "l5"]).Lines
      = ["l3", "l4", "l5"] := by decide

/-! ### Lemmas about the eviction loop and event application -/

lemma sumBytes_nil : sumBytes [] = 0 := rfl

lemma sumBytes_cons (l : String) (ls : List String) :
    sumBytes (l :: ls) = goLen l + sumBytes ls := by
  simp [sumBytes]

lemma sumBytes_append_singleton (ls : List String) (l : String) :
    sumBytes (ls ++ [l]) = sumBytes ls + goLen l := by
  simp [sumBytes]

/-- Core property of the eviction loop: when it starts from an accurate
byte count it ends with an accurate byte count, and the retained lines
satisfy both configured caps. -/
lemma evictLoop_spec (maxLines maxBytes : Int) :
    ∀ (lines : List String) (b : Int), b = sumBytes lines →
      (evictLoop maxLines maxBytes lines b).2
          = sumBytes (evictLoop maxLines maxBytes lines b).1 ∧
      (maxLines > 0 →
        (((evictLoop maxLines maxBytes lines b).1.length : Int) ≤ maxLines)) ∧
      (maxBytes > 0 → (evictLoop maxLines maxBytes lines b).2 ≤ maxBytes) := by
  intro lines
  induction lines with
  | nil =>
    intro b hb
    rw [sumBytes_nil] at hb
    subst hb
    refine ⟨rfl, ?_, ?_⟩ <;> intro h <;> simp [evictLoop] <;> omega
  | cons oldest rest ih =>
    intro b hb
    by_cases hc :
        (maxLines > 0 ∧ (((oldest :: rest).length : Nat) : Int) > maxLines) ∨
        (maxBytes > 0 ∧ b > maxBytes)
    · have hstep :
          evictLoop maxLines maxBytes (oldest :: rest) b
            = evictLoop maxLines maxBytes rest (b - goLen oldest) := by
        rw [evictLoop, if_pos hc]
      have hb' : b - goLen oldest = sumBytes rest := by
        rw [hb, sumBytes_cons]; ring
      rw [hstep]
      exact ih (b - goLen oldest) hb'
    · have hstep :
          evictLoop maxLines maxBytes (oldest :: rest) b = (oldest :: rest, b) := by
        rw [evictLoop, if_neg hc]
      push_neg at hc
      rw [hstep]
      exact ⟨hb, fun h => by simpa using le_of_not_lt (fun hgt => (hc.1 h).not_lt hgt),
        fun h => le_of_not_lt fun hgt => (hc.2 h).not_lt hgt⟩

/-- One line application preserves buffer accounting and (re)establishes
the dual cap invariant. -/
lemma applyLine_spec (ps : ProcessState) (l : String) (h : Accounting ps) :
    Accounting (applyLine ps l) ∧ CapInvariant (applyLine ps l) := by
  have hb : ps.ByteSize + goLen l = sumBytes (ps.Lines ++ [l]) := by
    rw [sumBytes_append_singleton, h]
  have hmain := evictLoop_spec ps.MaxLines ps.MaxBytes (ps.Lines ++ [l])
    (ps.ByteSize + goLen l) hb
  refine ⟨?_, ?_, ?_⟩
  · simpa [Accounting, applyLine] using hmain.1
  · intro hpos
    simpa [applyLine] using hmain.2.1 hpos
  · intro hpos
    have := hmain.2.2 hpos
    have hacct := hmain.1
    simp only [applyLine]
    rw [← hacct]
    exact this

lemma applyDone_accounting (ps : ProcessState) (e : Option GoErr) (h : Accounting ps) :
    Accounting (applyDone ps e) := by
  simpa [Accounting, applyDone] using h

lemma foldl_applyLine_accounting (ps : ProcessState) (ls : List String)
    (h : Accounting ps) : Accounting (List.foldl applyLine ps ls) := by
  induction ls generalizing ps with
  | nil => exact h
  | cons l rest ih => exact ih (applyLine ps l) (applyLine_spec ps l h).1

/-- Dispatch equation of `ApplyEvent` on an in-range `lineEvent`. -/
lemma applyEvent_line_in_range (states : List ProcessState) (l : String) (i : Int)
    (h0 : 0 ≤ i) (h1 : i < (states.length : Int)) :
    ApplyEvent states (.lineEvent l i)
      = states.set i.toNat (applyLine (states.getD i.toNat default) l) := by
  rw [ApplyEvent, if_neg]
  push_neg
  omega

/-- Dispatch equation of `ApplyEvent` on an in-range `doneEvent`. -/
lemma applyEvent_done_in_range (states : List ProcessState) (e : Option GoErr) (i : Int)
    (h0 : 0 ≤ i) (h1 : i < (states.length : Int)) :
    ApplyEvent states (.doneEvent e i)
      = states.set i.toNat (applyDone (states.getD i.toNat default) e) := by
  rw [ApplyEvent, if_neg]
  push_neg
  omega

/-- `ApplyEvent` ignores events whose index is out of range. -/
lemma applyEvent_out_of_range (states : List ProcessState) (ev : Event)
    (h : ev.index < 0 ∨ (states.length : Int) ≤ ev.index) :
    ApplyEvent states ev = states := by
  cases ev with
  | lineEvent l i =>
    simp only [Event.index] at h
    rw [ApplyEvent, if_pos h]
  | doneEvent e i =>
    simp only [Event.index] at h
    rw [ApplyEvent, if_pos h]

lemma mem_set_elim {α : Type} {q x : α} :
    ∀ {l : List α} {i : Nat}, q ∈ l.set i x → q = x ∨ q ∈ l := by
  intro l
  induction l with
  | nil => intro i h; simp at h
  | cons a rest ih =>
    intro i h
    cases i with
    | zero => simp at h; tauto
    | succ j =>
      simp only [List.set] at h
      rcases List.mem_cons.mp h with h | h
      · right; simp [h]
      · rcases ih h with h | h
        · left; exact h
        · right; exact List.mem_cons_of_mem _ h

lemma applyEvent_singleton_line (ps : ProcessState) (l : String) :
    ApplyEvent [ps] (.lineEvent l 0) = [applyLine ps l] := by
  rw [applyEvent_line_in_range [ps] l 0 (by omega) (by simp)]
  rfl

lemma foldl_applyEvent_singleton (ps : ProcessState) (ls : List String) :
    List.foldl (fun sts s => ApplyEvent sts (.lineEvent s 0)) [ps] ls
      = [List.foldl applyLine ps ls] := by
  induction ls generalizing ps with
  | nil => rfl
  | cons l rest ih =>
    simp only [List.foldl_cons, applyEvent_singleton_line]
    exact ih (applyLine ps l)

lemma getD_mem (l : List ProcessState) (n : Nat) (h : n < l.length) :
    l.getD n default ∈ l := by
  rw [List.getD_eq_getElem l default h]
  exact List.getElem_mem h

/-! ### Claim theorems for the Output Buffer (renderer/state.go) -/

/-- Claim C1: for every buffer whose byte counter matches its retained
lines (as in the initial state) and every sequence of Line events applied
to it through `ApplyEvent`, after each application the dual-constraint
invariant holds: a positive line cap bounds the retained line count and a
positive byte cap bounds the retained byte total, simultaneously when both
are set. -/
theorem c1_dual_cap_invariant (ps : ProcessState) (h : Accounting ps)
    (pre : List String) (l : String) :
    ∀ q ∈ List.foldl (fun sts s => ApplyEvent sts (.lineEvent s 0)) [ps] (pre ++ [l]),
      CapInvariant q := by
  intro q hq
  rw [foldl_applyEvent_singleton] at hq
  simp only [List.mem_singleton] at hq
  subst hq
  rw [List.foldl_append, List.foldl_cons, List.foldl_nil]
  exact (applyLine_spec _ l (foldl_applyLine_accounting ps pre h)).2

theorem c1_dual_cap_invariant_witness :
    CapInvariant (List.foldl applyLine ({ MaxLines := 2 } : ProcessState) ["a", "b"]) := by
  have h := c1_dual_cap_invariant { MaxLines := 2 } rfl ["a"] "b"
  simp only [foldl_applyEvent_singleton, List.mem_singleton] at h
  exact h _ rfl

/-- Claim C3: on an in-range Line event, `ApplyEvent` rewrites exactly the
addressed buffer with `applyLine`, which appends the line, adds its byte
length, runs the front-eviction loop, and marks the buffer dirty; applying
lines l1..l5 to an empty buffer with a line cap of 3 retains exactly
[l3, l4, l5]. -/
theorem c3_line_event_update :
    (∀ (states : List ProcessState) (l : String) (i : Int),
      0 ≤ i → i < (states.length : Int) →
      ApplyEvent states (.lineEvent l i)
        = states.set i.toNat (applyLine (states.getD i.toNat default) l)) ∧
    (∀ (ps : ProcessState) (l : String),
      applyLine ps l =
        { ps with
          Lines :=
            (evictLoop ps.MaxLines ps.MaxBytes (ps.Lines ++ [l]) (ps.ByteSize + goLen l)).1,
          ByteSize :=
            (evictLoop ps.MaxLines ps.MaxBytes (ps.Lines ++ [l]) (ps.ByteSize + goLen l)).2,
          Dirty := true }) ∧
    (List.foldl applyLine { MaxLines := 3 } ["l1", "l2", "l3", "l4", "l5"]).Lines
      = ["l3", "l4", "l5"] := by
  refine ⟨applyEvent_line_in_range, fun ps l => rfl, by decide⟩

theorem c3_line_event_update_witness :
    ApplyEvent [({ MaxLines := 3 } : ProcessState)] (.lineEvent "x" 0)
      = [applyLine { MaxLines := 3 } "x"] := by
  have h := c3_line_event_update.1 [{ MaxLines := 3 }] "x" 0 (by decide) (by decide)
  simpa using h

/-- Claim C4: the aggregate exit code is 0 exactly when the Terminal error of every state is nil (vacuously for an empty state list), and 1 exactly
when some state carries a non-nil error. -/
theorem c4_exit_code (states : List ProcessState) :
    (ExitCodeFromStates states = 0 ↔ ∀ ps ∈ states, ps.Err = none) ∧
    (ExitCodeFromStates states = 1 ↔ ∃ ps ∈ states, ps.Err ≠ none) := by
  induction states with
  | nil => constructor <;> simp [ExitCodeFromStates]
  | cons ps rest ih =>
    by_cases he : ps.Err = none
    · constructor
      · simp [ExitCodeFromStates, he, ih.1]
      · simp [ExitCodeFromStates, he, ih.2]
    · constructor
      · simp [ExitCodeFromStates, he]
      · simp [ExitCodeFromStates, he]

theorem c4_exit_code_witness : ExitCodeFromStates [] = 0 :=
  (c4_exit_code []).1.mpr (by simp)

/-- Claim C5: any event whose process index is negative or at least the
number of buffers is silently ignored: `ApplyEvent` returns the states
unchanged (and, being a total function, cannot panic). -/
theorem c5_out_of_range_ignored (states : List ProcessState) (ev : Event)
    (h : ev.index < 0 ∨ (states.length : Int) ≤ ev.index) :
    ApplyEvent states ev = states :=
  applyEvent_out_of_range states ev h

theorem c5_out_of_range_ignored_witness :
    ApplyEvent [(default : ProcessState)] (.lineEvent "x" (-1)) = [default] :=
  c5_out_of_range_ignored [default] (.lineEvent "x" (-1)) (by decide)

/-- Claim C6: on an in-range Terminal event, `ApplyEvent` rewrites exactly
the addressed buffer with `applyDone`, which sets Done, clears Running,
overwrites the stored error with the carried one, and marks the buffer
dirty; re-applying a Terminal event replaces (never accumulates) the
stored error. -/
theorem c6_terminal_event :
    (∀ (states : List ProcessState) (e : Option GoErr) (i : Int),
      0 ≤ i → i < (states.length : Int) →
      ApplyEvent states (.doneEvent e i)
        = states.set i.toNat (applyDone (states.getD i.toNat default) e)) ∧
    (∀ (ps : ProcessState) (e : Option GoErr),
      (applyDone ps e).Done = true ∧ (applyDone ps e).Running = false ∧
      (applyDone ps e).Err = e ∧ (applyDone ps e).Dirty = true) ∧
    (∀ (ps : ProcessState) (e1 e2 : Option GoErr),
      applyDone (applyDone ps e1) e2 = applyDone ps e2) := by
  refine ⟨applyEvent_done_in_range, fun ps e => ⟨rfl, rfl, rfl, rfl⟩, fun ps e1 e2 => rfl⟩

theorem c6_terminal_event_witness :
    ApplyEvent [(default : ProcessState)] (.doneEvent (some (.msg "exit status 1")) 0)
      = [applyDone default (some (.msg "exit status 1"))] := by
  have h := c6_terminal_event.1 [default] (some (.msg "exit status 1")) 0
    (by decide) (by decide)
  simpa using h

/-- Claim C9: `ApplyEvent` preserves byte accounting: if in every buffer
`ByteSize` equals the byte total of its retained lines, the same holds for
every buffer after applying any event, Line or Terminal, at any index. -/
theorem c9_byte_accounting (states : List ProcessState) (ev : Event)
    (h : ∀ ps ∈ states, Accounting ps) :
    ∀ ps ∈ ApplyEvent states ev, Accounting ps := by
  intro q hq
  by_cases hrange : ev.index < 0 ∨ (states.length : Int) ≤ ev.index
  · rw [applyEvent_out_of_range states ev hrange] at hq
    exact h q hq
  · push_neg at hrange
    cases ev with
    | lineEvent l i =>
      simp only [Event.index] at hrange
      rw [applyEvent_line_in_range states l i hrange.1 hrange.2] at hq
      rcases mem_set_elim hq with rfl | hmem
      · exact (applyLine_spec _ l (h _ (getD_mem states i.toNat (by omega)))).1
      · exact h q hmem
    | doneEvent e i =>
      simp only [Event.index] at hrange
      rw [applyEvent_done_in_range states e i hrange.1 hrange.2] at hq
      rcases mem_set_elim hq with rfl | hmem
      · exact applyDone_accounting _ e (h _ (getD_mem states i.toNat (by omega)))
      · exact h q hmem

theorem c9_byte_accounting_witness :
    Accounting (applyLine (default : ProcessState) "x") := by
  have h := c9_byte_accounting [default] (.lineEvent "x" 0)
    (by intro ps hps; simp only [List.mem_singleton] at hps; subst hps; rfl)
  apply h
  simp [applyEvent_singleton_line]

/-- Claim C10: `ApplyEvent` has a strict frame: the slice keeps its
length, every slot other than the index of the event is unchanged, a Line event
leaves Done, Running, Err, Name, MaxLines and MaxBytes of the addressed
slot unchanged, and a Terminal event leaves Lines, ByteSize, Name,
MaxLines and MaxBytes of the addressed slot unchanged. -/
theorem c10_frame :
    (∀ (states : List ProcessState) (ev : Event),
      (ApplyEvent states ev).length = states.length) ∧
    (∀ (states : List ProcessState) (ev : Event) (j : Nat), j ≠ ev.index.toNat →
      (ApplyEvent states ev)[j]? = states[j]?) ∧
    (∀ (states : List ProcessState) (l : String) (i : Int),
      0 ≤ i → i < (states.length : Int) →
      ∃ old updated, states[i.toNat]? = some old ∧
        (ApplyEvent states (.lineEvent l i))[i.toNat]? = some updated ∧
        updated.Done = old.Done ∧ updated.Running = old.Running ∧
        updated.Err = old.Err ∧ updated.Name = old.Name ∧
        updated.MaxLines = old.MaxLines ∧ updated.MaxBytes = old.MaxBytes) ∧
    (∀ (states : List ProcessState) (e : Option GoErr) (i : Int),
      0 ≤ i → i < (states.length : Int) →
      ∃ old updated, states[i.toNat]? = some old ∧
        (ApplyEvent states (.doneEvent e i))[i.toNat]? = some updated ∧
        updated.Lines = old.Lines ∧ updated.ByteSize = old.ByteSize ∧
        updated.Name = old.Name ∧ updated.MaxLines = old.MaxLines ∧
        updated.MaxBytes = old.MaxBytes) := by
  have hlen : ∀ (states : List ProcessState) (ev : Event),
      (ApplyEvent states ev).length = states.length := by
    intro states ev
    by_cases hrange : ev.index < 0 ∨ (states.length : Int) ≤ ev.index
    · rw [applyEvent_out_of_range states ev hrange]
    · push_neg at hrange
      cases ev with
      | lineEvent l i =>
        simp only [Event.index] at hrange
        rw [applyEvent_line_in_range states l i hrange.1 hrange.2, List.length_set]
      | doneEvent e i =>
        simp only [Event.index] at hrange
        rw [applyEvent_done_in_range states e i hrange.1 hrange.2, List.length_set]
  refine ⟨hlen, ?_, ?_, ?_⟩
  · intro states ev j hj
    by_cases hrange : ev.index < 0 ∨ (states.length : Int) ≤ ev.index
    · rw [applyEvent_out_of_range states ev hrange]
    · push_neg at hrange
      cases ev with
      | lineEvent l i =>
        simp only [Event.index] at hrange hj
        rw [applyEvent_line_in_range states l i hrange.1 hrange.2]
        exact List.getElem?_set_ne (fun hx => hj hx.symm)
      | doneEvent e i =>
        simp only [Event.index] at hrange hj
        rw [applyEvent_done_in_range states e i hrange.1 hrange.2]
        exact List.getElem?_set_ne (fun hx => hj hx.symm)
  · intro states l i h0 h1
    have hn : i.toNat < states.length := by omega
    refine ⟨states.getD i.toNat default, applyLine (states.getD i.toNat default) l,
      ?_, ?_, rfl, rfl, rfl, rfl, rfl, rfl⟩
    · rw [List.getD_eq_getElem states default hn]
      exact List.getElem?_eq_getElem hn
    · rw [applyEvent_line_in_range states l i h0 h1]
      exact List.getElem?_set_self hn
  · intro states e i h0 h1
    have hn : i.toNat < states.length := by omega
    refine ⟨states.getD i.toNat default, applyDone (states.getD i.toNat default) e,
      ?_, ?_, rfl, rfl, rfl, rfl, rfl⟩
    · rw [List.getD_eq_getElem states default hn]
      exact List.getElem?_eq_getElem hn
    · rw [applyEvent_done_in_range states e i h0 h1]
      exact List.getElem?_set_self hn

theorem c10_frame_witness :
    (ApplyEvent [(default : ProcessState), default] (.lineEvent "x" 0))[1]?
      = ([(default : ProcessState), default] : List ProcessState)[1]? :=
  c10_frame.2.1 [default, default] (.lineEvent "x" 0) 1 (by decide)

/-! ### The line framer (engine `streamReader`)

`streamReader` wraps `bufio.Scanner` with `bufio.ScanLines` over the raw
byte stream and applies `strings.TrimRight(line, "\r\n")` to every token.
`ScanLines` splits the input at each `\n`, drops one `\r` immediately
before the `\n` (`dropCR`), emits a final unterminated token if the input
does not end in `\n`, and emits nothing for empty input. -/

/-- Is `c` one of the characters in the Go cutset string of
`strings.TrimRight(line, "\r\n")`. -/
def isCRLF (c : Char) : Bool :=
  c = '\r' || c = '\n'

/-- Go `strings.TrimRight(line, "\r\n")`: remove every trailing `\r` or
`\n` character. -/
def trimRightCRLF (l : List Char) : List Char :=
  (l.reverse.dropWhile isCRLF).reverse

/-- `bufio.dropCR`: drop one terminal carriage return, if present. -/
def dropCR (l : List Char) : List Char :=
  match l.getLast? with
  | some c => if c = '\r' then l.dropLast else l
  | none => l

/-- Split a character list at every `\n`, Go `strings.Split` style (the
separators are consumed; a trailing `\n` yields a trailing empty part). -/
def splitNL : List Char → List (List Char)
  | [] => [[]]
  | c :: rest =>
    if c = '\n' then [] :: splitNL rest
    else
      match splitNL rest with
      | [] => [[c]]
      | t :: ts => (c :: t) :: ts

/-- The token sequence `bufio.Scanner` with `bufio.ScanLines` produces on
an input: split at `\n`, drop the trailing empty part that a terminating
`\n` (or an empty input) leaves, and remove one `\r` before each `\n`. -/
def scanTokens (input : List Char) : List (List Char) :=
  let parts := splitNL input
  let kept := if parts.getLast? = some [] then parts.dropLast else parts
  kept.map dropCR

/-- The line framer of `streamReader`: scanner tokens with
`strings.TrimRight(line, "\r\n")` applied to each. -/
def goFramer (input : List Char) : List (List Char) :=
  (scanTokens input).map trimRightCRLF

/-- Modelled from the spec (refinement comparison only, not from the
source): a framer for which each of `\n`, `\r\n` and a lone `\r` is a line
terminator of the input. -/
def specSplit : List Char → List (List Char)
  | [] => [[]]
  | '\r' :: '\n' :: rest => [] :: specSplit rest
  | '\r' :: rest => [] :: specSplit rest
  | '\n' :: rest => [] :: specSplit rest
  | c :: rest =>
    match specSplit rest with
    | [] => [[c]]
    | t :: ts => (c :: t) :: ts

/-- Modelled from the spec (refinement comparison only): lines of the
spec-described framer, dropping the trailing empty piece a terminating
line ending (or empty input) leaves. -/
def specFramer (input : List Char) : List (List Char) :=
  let parts := specSplit input
  if parts.getLast? = some [] then parts.dropLast else parts

lemma splitNL_ne_nil (l : List Char) : splitNL l ≠ [] := by
  cases l with
  | nil => simp [splitNL]
  | cons c rest =>
    by_cases h : c = '\n'
    · simp [splitNL, h]
    · simp only [splitNL, if_neg h]
      cases splitNL rest <;> simp

lemma head?_dropWhile (p : Char → Bool) :
    ∀ (l : List Char) (c : Char), (l.dropWhile p).head? = some c → p c = false := by
  intro l
  induction l with
  | nil => intro c h; simp at h
  | cons a rest ih =>
    intro c h
    by_cases hp : p a
    · rw [List.dropWhile_cons_of_pos hp] at h
      exact ih c h
    · rw [List.dropWhile_cons_of_neg hp] at h
      simp only [List.head?_cons, Option.some.injEq] at h
      subst h
      simpa using hp

lemma trimRightCRLF_getLast (l : List Char) (c : Char)
    (h : (trimRightCRLF l).getLast? = some c) : isCRLF c = false := by
  rw [trimRightCRLF, List.getLast?_reverse] at h
  exact head?_dropWhile isCRLF l.reverse c h

lemma trimRightCRLF_append_crlf (l : List Char) (c : Char) (hc : isCRLF c = true) :
    trimRightCRLF (l ++ [c]) = trimRightCRLF l := by
  simp only [trimRightCRLF, List.reverse_append, List.reverse_cons, List.reverse_nil,
    List.nil_append, List.cons_append, List.dropWhile_cons_of_pos hc]

lemma trimRightCRLF_dropCR (l : List Char) :
    trimRightCRLF (dropCR l) = trimRightCRLF l := by
  cases hl : l.getLast? with
  | none =>
    have hd : dropCR l = l := by rw [dropCR, hl]
    rw [hd]
  | some c =>
    have hd : dropCR l = if c = '\r' then l.dropLast else l := by rw [dropCR, hl]
    rw [hd]
    by_cases hc : c = '\r'
    · have hne : l ≠ [] := by
        intro h
        subst h
        simp at hl
      have hdec : l.dropLast ++ [l.getLast hne] = l := List.dropLast_concat_getLast hne
      have hgl : l.getLast hne = c := by
        have := List.getLast?_eq_getLast l hne
        rw [hl] at this
        exact (Option.some.injEq _ _ ▸ this).symm
      rw [if_pos hc]
      conv_rhs => rw [← hdec]
      rw [hgl, hc, trimRightCRLF_append_crlf]
      rfl
    · rw [if_neg hc]

lemma splitNL_append (t : List Char) :
    ∀ s : List Char, '\n' ∉ s → splitNL (s ++ '\n' :: t) = s :: splitNL t := by
  intro s
  induction s with
  | nil =>
    intro _
    simp [splitNL]
  | cons c s ih =>
    intro hmem
    have hc : ¬(c = '\n') := fun h => hmem (h ▸ List.mem_cons_self c s)
    have hrec := ih fun h => hmem (List.mem_cons_of_mem c h)
    simp only [List.cons_append, splitNL, if_neg hc, List.append_eq, hrec]

lemma getLast?_cons_of_ne_nil {α : Type} (a : α) {l : List α} (h : l ≠ []) :
    (a :: l).getLast? = l.getLast? := by
  cases l with
  | nil => exact absurd rfl h
  | cons b m => exact List.getLast?_cons_cons

lemma scanTokens_append (s t : List Char) (hmem : '\n' ∉ s) :
    scanTokens (s ++ '\n' :: t) = dropCR s :: scanTokens t := by
  have hsplit := splitNL_append t s hmem
  have hne := splitNL_ne_nil t
  rw [scanTokens, hsplit]
  rw [scanTokens]
  rw [getLast?_cons_of_ne_nil s hne]
  by_cases hend : (splitNL t).getLast? = some []
  · rw [if_pos hend, if_pos hend, List.dropLast_cons_of_ne_nil hne, List.map_cons]
  · rw [if_neg hend, if_neg hend, List.map_cons]

lemma goFramer_append (s t : List Char) (hmem : '\n' ∉ s) :
    goFramer (s ++ '\n' :: t) = trimRightCRLF s :: goFramer t := by
  rw [goFramer, scanTokens_append s t hmem, List.map_cons, trimRightCRLF_dropCR, goFramer]

/-! ### Claim theorems for the line framer -/

/-- Claim C8 counterexample: the code framer splits only at `\n` (with
`\r` stripped when it directly precedes a `\n` or ends a line), so on the
input `a\r b` a lone `\r` is not treated as a line terminator: the code
yields the single line `a\r b` while the spec-described framer, for which
`\r` terminates a line, yields the two lines `a` and `b`. -/
theorem c8_framer_counterexample :
    goFramer ['a', '\r', 'b'] = [['a', '\r', 'b']] ∧
    specFramer ['a', '\r', 'b'] = [['a'], ['b']] ∧
    goFramer ['a', '\r', 'b'] ≠ specFramer ['a', '\r', 'b'] := by
  refine ⟨by decide, by decide, by decide⟩

/-- Claim C8 as amended: the framer produces a finite sequence of lines;
no emitted line ends in a carriage-return or newline character (trailing
`\r`/`\n` runs are stripped from the end of each line), and `\n` — hence also
`\r\n`, whose `\r` is stripped — terminates a line; a lone `\r` is not a
terminator. -/
theorem c8_framer_amended :
    (∀ (input l : List Char), l ∈ goFramer input →
      ∀ c, l.getLast? = some c → c ≠ '\r' ∧ c ≠ '\n') ∧
    (∀ (s t : List Char), '\n' ∉ s →
      goFramer (s ++ '\n' :: t) = trimRightCRLF s :: goFramer t) := by
  constructor
  · intro input l hl c hc
    rcases List.mem_map.mp hl with ⟨tok, _, rfl⟩
    have := trimRightCRLF_getLast tok c hc
    simp only [isCRLF, Bool.or_eq_false_iff, decide_eq_false_iff_not] at this
    exact this
  · exact goFramer_append

theorem c8_framer_amended_witness :
    goFramer (['a'] ++ '\n' :: ['b']) = trimRightCRLF ['a'] :: goFramer ['b'] :=
  c8_framer_amended.2 ['a'] ['b'] (by decide)

/-! ### Engine events and the per-process task (engine `runProcess`)

The goroutines of the engine are modelled by per-goroutine event traces plus a
nondeterministic interleaving relation; real time (the shutdown timer) and
the scheduler are abstracted into the choice of scenario constructor and
of interleaving. -/

/-- `engine.ProcessLine` (engine.go): the outward event. `IsComplete =
false` is a Line event, `IsComplete = true` the Terminal event. -/
structure ProcessLine where
  Err : Option GoErr := none
  Line : String := ""
  Index : Int
  IsComplete : Bool := false
deriving DecidableEq, Repr

/-- A Line event as emitted by the engine (Go composite literal with only
`Index` and `Line` set). -/
def mkLine (idx : Int) (s : String) : ProcessLine :=
  { Index := idx, Line := s }

/-- The Terminal event for a process (Go composite literal with `Index`,
`IsComplete: true` and `Err` set). -/
def mkTerminal (idx : Int) (e : Option GoErr) : ProcessLine :=
  { Index := idx, IsComplete := true, Err := e }

/-- The synthetic diagnostic events `streamReader` (run.go) sends after
its scan loop: one `[stream error: ...]` Line event when the scanner
error is non-nil and not EOF, nothing otherwise. -/
def streamErrEvents (idx : Int) : Option GoErr → List ProcessLine
  | none => []
  | some e =>
    if e = .eof then []
    else [mkLine idx ("[stream error: " ++ e.toMessage ++ "]")]

/-- The events `streamReader` (run.go) sends for one captured stream whose
raw content is `input` and whose final scanner error is `readErr`: one
Line event per framed line, then the synthetic diagnostics. -/
def streamReaderTrace (input : List Char) (readErr : Option GoErr) (idx : Int) :
    List ProcessLine :=
  ((scanTokens input).map fun t => mkLine idx (String.mk (trimRightCRLF t))) ++
    streamErrEvents idx readErr

/-- Claim C7: on a read error other than clean end-of-stream, the stream
reader's trace is its clean trace plus exactly one extra synthetic Line
event carrying the bracketed marker with the cause interpolated, emitted
last (the reader stops after it); every event of the trace, the synthetic
one included, is an ordinary Line event, never a Terminal. -/
theorem c7_stream_error_diagnostic (input : List Char) (idx : Int) (e : GoErr)
    (h : e ≠ .eof) :
    streamReaderTrace input (some e) idx
      = streamReaderTrace input none idx
          ++ [mkLine idx ("[stream error: " ++ e.toMessage ++ "]")] ∧
    ∀ ev ∈ streamReaderTrace input (some e) idx, ev.IsComplete = false := by
  constructor
  · simp [streamReaderTrace, streamErrEvents, if_neg h]
  · intro ev hev
    simp only [streamReaderTrace, streamErrEvents, if_neg h, List.mem_append,
      List.mem_map, List.mem_singleton] at hev
    rcases hev with ⟨t, _, rfl⟩ | rfl <;> rfl

theorem c7_stream_error_diagnostic_witness :
    streamReaderTrace ['h', 'i'] (some (.msg "read failure")) 0
      = streamReaderTrace ['h', 'i'] none 0
          ++ [mkLine 0 "[stream error: read failure]"] :=
  (c7_stream_error_diagnostic ['h', 'i'] 0 (.msg "read failure") (by decide)).1

/-- How `handleGracefulShutdown` (run.go) resolves for one process: the
exit signal won the race against cancellation, or the context was
cancelled (with `context.Cause` value `cause`) and then either the process
terminated within the shutdown timeout, or the timer fired and it was
force-killed (`timeoutText` is the `%v` rendering of the timeout), or no
live process handle existed any more. `waitErr` is the value `cmd.Wait()`
delivered on the `done` channel. -/
inductive ShutdownScenario where
  | normalExit (waitErr : Option GoErr)
  | cancelledGraceful (cause : Option GoErr) (waitErr : Option GoErr)
  | cancelledTimeout (cause : Option GoErr) (timeoutText : String) (waitErr : Option GoErr)
  | cancelledNoProc (cause : Option GoErr) (waitErr : Option GoErr)
deriving DecidableEq, Repr

/-- The `[cancellation: ...]` diagnostic Line of `handleGracefulShutdown`:
emitted when the context cause is non-nil and not `context.Canceled`. -/
def causeTrace (idx : Int) : Option GoErr → List ProcessLine
  | none => []
  | some c =>
    if c = .canceled then []
    else [mkLine idx ("[cancellation: " ++ c.toMessage ++ "]")]

/-- The diagnostic Line events `handleGracefulShutdown` emits before its
Terminal event, per scenario. -/
def shutdownPreTrace (idx : Int) : ShutdownScenario → List ProcessLine
  | .normalExit _ => []
  | .cancelledGraceful cause _ =>
    causeTrace idx cause ++
      [mkLine idx "[sending SIGTERM for graceful shutdown...]",
       mkLine idx "[gracefully terminated]"]
  | .cancelledTimeout cause timeoutText _ =>
    causeTrace idx cause ++
      [mkLine idx "[sending SIGTERM for graceful shutdown...]",
       mkLine idx ("[graceful shutdown timeout (" ++ timeoutText ++ "), force killing...]"),
       mkLine idx "[force killed]"]
  | .cancelledNoProc cause _ => causeTrace idx cause

/-- The exit error `handleGracefulShutdown` puts in its Terminal event. -/
def shutdownWaitErr : ShutdownScenario → Option GoErr
  | .normalExit w => w
  | .cancelledGraceful _ w => w
  | .cancelledTimeout _ _ w => w
  | .cancelledNoProc _ w => w

/-- The full event sequence `handleGracefulShutdown` itself sends on the
output channel: its diagnostics, then exactly one Terminal event. -/
def handleGracefulShutdownTrace (idx : Int) (sd : ShutdownScenario) : List ProcessLine :=
  shutdownPreTrace idx sd ++ [mkTerminal idx (shutdownWaitErr sd)]

/-- Which of the exit paths of `runProcess` (run.go) a process task took:
one of the four early-return error paths, or a full run with the given
stdout/stderr stream contents, per-stream read errors, and shutdown
resolution. -/
inductive RunScenario where
  | factoryFail (e : GoErr)
  | stdoutPipeFail (e : GoErr)
  | stderrPipeFail (e : GoErr)
  | startFail (e : GoErr)
  | runs (stdoutInput : List Char) (stdoutErr : Option GoErr)
         (stderrInput : List Char) (stderrErr : Option GoErr)
         (shutdown : ShutdownScenario)
deriving DecidableEq, Repr

/-- `zs` is a merge of `xs` and `ys` that keeps the relative order inside
each: the possible orders in which the events of two concurrent senders appear
on one channel. -/
inductive Interleaving : List ProcessLine → List ProcessLine → List ProcessLine → Prop where
  | nil : Interleaving [] [] []
  | left {x xs ys zs} : Interleaving xs ys zs → Interleaving (x :: xs) ys (x :: zs)
  | right {y xs ys zs} : Interleaving xs ys zs → Interleaving xs (y :: ys) (y :: zs)

/-- The possible event sequences one `runProcess` call (together with the
two `streamReader` goroutines it spawns) sends for index `idx`. On the
error paths the trace is the single wrapped-error Terminal event the code
sends before returning. On a full run, the two stream traces merge in any
order, the shutdown diagnostics interleave with them, and the Terminal
event comes last, because `runProcess` resolves the `done` channel only
after both stream readers finish (`streamsWG.Wait()`), and every
`handleGracefulShutdown` branch sends the Terminal event after reading
`done`. -/
def RunProcessTrace (idx : Int) (sc : RunScenario) (trace : List ProcessLine) : Prop :=
  match sc with
  | .factoryFail e => trace = [mkTerminal idx (some (wrapErr "create command" e))]
  | .stdoutPipeFail e => trace = [mkTerminal idx (some (wrapErr "stdout pipe" e))]
  | .stderrPipeFail e => trace = [mkTerminal idx (some (wrapErr "stderr pipe" e))]
  | .startFail e => trace = [mkTerminal idx (some (wrapErr "start" e))]
  | .runs stdoutInput stdoutErr stderrInput stderrErr sd =>
    ∃ merged pre,
      Interleaving (streamReaderTrace stdoutInput stdoutErr idx)
        (streamReaderTrace stderrInput stderrErr idx) merged ∧
      Interleaving merged (shutdownPreTrace idx sd) pre ∧
      trace = pre ++ [mkTerminal idx (shutdownWaitErr sd)]

/-- `trace` is a merge of the given per-goroutine traces (first with a
merge of the rest, recursively), keeping the internal order of each trace: the
possible outputs of the shared channel of `Engine.Run` before it is closed. -/
inductive MultiInterleaving : List (List ProcessLine) → List ProcessLine → Prop where
  | nil : MultiInterleaving [] []
  | cons {xs xss rest zs} : Interleaving xs rest zs → MultiInterleaving xss rest →
      MultiInterleaving (xs :: xss) zs

/-- The possible outward event sequences of `Engine.Run` (run.go): one
`runProcess` trace per spec position `k`, all merged onto the single
output channel. -/
def EngineRunTrace (scs : List RunScenario) (trace : List ProcessLine) : Prop :=
  ∃ taskTraces : List (List ProcessLine),
    taskTraces.length = scs.length ∧
    (∀ (k : Nat) (hk : k < scs.length) (hk2 : k < taskTraces.length),
      RunProcessTrace (k : Int) (scs.get ⟨k, hk⟩) (taskTraces.get ⟨k, hk2⟩)) ∧
    MultiInterleaving taskTraces trace

/-! ### Lemmas about engine traces -/

lemma interleaving_mem {xs ys zs : List ProcessLine} (h : Interleaving xs ys zs) :
    ∀ z ∈ zs, z ∈ xs ∨ z ∈ ys := by
  induction h with
  | nil => intro z hz; simp at hz
  | @left x xs ys zs _ ih =>
    intro z hz
    rcases List.mem_cons.mp hz with rfl | hz
    · exact Or.inl (List.mem_cons_self _ _)
    · rcases ih z hz with h | h
      · exact Or.inl (List.mem_cons_of_mem _ h)
      · exact Or.inr h
  | @right y xs ys zs _ ih =>
    intro z hz
    rcases List.mem_cons.mp hz with rfl | hz
    · exact Or.inr (List.mem_cons_self _ _)
    · rcases ih z hz with h | h
      · exact Or.inl h
      · exact Or.inr (List.mem_cons_of_mem _ h)

lemma interleaving_nil_left {ys zs : List ProcessLine} (h : Interleaving [] ys zs) :
    zs = ys := by
  generalize hx : ([] : List ProcessLine) = xs at h
  induction h with
  | nil => rfl
  | left _ _ => simp at hx
  | right _ ih => rw [ih hx]

lemma interleaving_nil_right {xs zs : List ProcessLine} (h : Interleaving xs [] zs) :
    zs = xs := by
  generalize hy : ([] : List ProcessLine) = ys at h
  induction h with
  | nil => rfl
  | left _ ih => rw [ih hy]
  | right _ _ => simp at hy

lemma interleaving_filter (p : ProcessLine → Bool) {xs ys zs : List ProcessLine}
    (h : Interleaving xs ys zs) :
    Interleaving (xs.filter p) (ys.filter p) (zs.filter p) := by
  induction h with
  | nil => exact .nil
  | @left x xs ys zs _ ih =>
    by_cases hp : p x
    · rw [List.filter_cons_of_pos hp, List.filter_cons_of_pos hp]
      exact .left ih
    · rw [List.filter_cons_of_neg hp, List.filter_cons_of_neg hp]
      exact ih
  | @right y xs ys zs _ ih =>
    by_cases hp : p y
    · rw [List.filter_cons_of_pos hp, List.filter_cons_of_pos hp]
      exact .right ih
    · rw [List.filter_cons_of_neg hp, List.filter_cons_of_neg hp]
      exact ih

lemma multiInterleaving_mem {xss : List (List ProcessLine)} {zs : List ProcessLine}
    (h : MultiInterleaving xss zs) : ∀ e ∈ zs, ∃ xs ∈ xss, e ∈ xs := by
  induction h with
  | nil => intro e he; simp at he
  | @cons xs xss rest zs hint _ ih =>
    intro e he
    rcases interleaving_mem hint e he with h | h
    · exact ⟨xs, List.mem_cons_self _ _, h⟩
    · obtain ⟨l, hl, hel⟩ := ih e h
      exact ⟨l, List.mem_cons_of_mem _ hl, hel⟩

/-- Filtering a many-way merge by a predicate that accepts exactly the
events of the component at position `k` recovers that component. -/
lemma multiInterleaving_filter (p : ProcessLine → Bool) :
    ∀ {xss : List (List ProcessLine)} {zs : List ProcessLine},
      MultiInterleaving xss zs →
      ∀ (k : Nat) (hk : k < xss.length),
        (∀ e ∈ xss.get ⟨k, hk⟩, p e = true) →
        (∀ (j : Nat) (hj : j < xss.length), j ≠ k → ∀ e ∈ xss.get ⟨j, hj⟩, p e = false) →
        zs.filter p = xss.get ⟨k, hk⟩ := by
  intro xss zs h
  induction h with
  | nil => intro k hk; exact absurd hk (by simp)
  | @cons xs xss rest zs hint hmulti ih =>
    intro k hk hyes hno
    have hfilter := interleaving_filter p hint
    cases k with
    | zero =>
      have hxs : xs.filter p = xs := List.filter_eq_self.mpr hyes
      have hrest : rest.filter p = [] := by
        refine List.filter_eq_nil_iff.mpr ?_
        intro e he
        obtain ⟨l, hl, hel⟩ := multiInterleaving_mem hmulti e he
        obtain ⟨⟨j, hj⟩, rfl⟩ := List.mem_iff_get.mp hl
        have := hno (j + 1) (by simpa using hj) (by omega) e hel
        simp [this]
      rw [hxs, hrest] at hfilter
      exact interleaving_nil_right hfilter
    | succ k0 =>
      have hxs : xs.filter p = [] := by
        refine List.filter_eq_nil_iff.mpr ?_
        intro e he
        have := hno 0 (by simp) (by omega) e he
        simp [this]
      have hk0 : k0 < xss.length := by simpa using hk
      have hrest : rest.filter p = xss.get ⟨k0, hk0⟩ := by
        refine ih k0 hk0 ?_ ?_
        · intro e he
          exact hyes e he
        · intro j hj hjk e he
          exact hno (j + 1) (by simpa using hj) (by omega) e he
      rw [hxs, hrest] at hfilter
      have := interleaving_nil_left hfilter
      rw [this]
      rfl

lemma streamReaderTrace_events (input : List Char) (readErr : Option GoErr) (idx : Int) :
    ∀ ev ∈ streamReaderTrace input readErr idx, ev.IsComplete = false ∧ ev.Index = idx := by
  intro ev hev
  simp only [streamReaderTrace, List.mem_append, List.mem_map] at hev
  rcases hev with ⟨t, _, rfl⟩ | hev
  · exact ⟨rfl, rfl⟩
  · cases readErr with
    | none => simp [streamErrEvents] at hev
    | some e =>
      by_cases he : e = .eof
      · simp [streamErrEvents, he] at hev
      · rw [streamErrEvents, if_neg he] at hev
        simp only [List.mem_singleton] at hev
        subst hev
        exact ⟨rfl, rfl⟩

lemma causeTrace_events (idx : Int) (c : Option GoErr) :
    ∀ ev ∈ causeTrace idx c, ev.IsComplete = false ∧ ev.Index = idx := by
  intro ev hev
  cases c with
  | none => simp [causeTrace] at hev
  | some c =>
    by_cases hc : c = .canceled
    · simp [causeTrace, hc] at hev
    · rw [causeTrace, if_neg hc] at hev
      simp only [List.mem_singleton] at hev
      subst hev
      exact ⟨rfl, rfl⟩

lemma shutdownPreTrace_events (idx : Int) (sd : ShutdownScenario) :
    ∀ ev ∈ shutdownPreTrace idx sd, ev.IsComplete = false ∧ ev.Index = idx := by
  intro ev hev
  cases sd with
  | normalExit w => simp [shutdownPreTrace] at hev
  | cancelledGraceful cause w =>
    simp only [shutdownPreTrace, List.mem_append, List.mem_cons,
      List.mem_singleton, List.not_mem_nil, or_false] at hev
    rcases hev with hc | rfl | rfl
    · exact causeTrace_events idx cause ev hc
    · exact ⟨rfl, rfl⟩
    · exact ⟨rfl, rfl⟩
  | cancelledTimeout cause ts w =>
    simp only [shutdownPreTrace, List.mem_append, List.mem_cons,
      List.mem_singleton, List.not_mem_nil, or_false] at hev
    rcases hev with hc | rfl | rfl | rfl
    · exact causeTrace_events idx cause ev hc
    · exact ⟨rfl, rfl⟩
    · exact ⟨rfl, rfl⟩
    · exact ⟨rfl, rfl⟩
  | cancelledNoProc cause w =>
    exact causeTrace_events idx cause ev hev

/-- Shape of any `runProcess` trace: some Line events (all for this
index), then exactly one Terminal event, which ends the trace. -/
lemma runProcessTrace_shape (idx : Int) (sc : RunScenario) (trace : List ProcessLine)
    (h : RunProcessTrace idx sc trace) :
    ∃ pre t, trace = pre ++ [t] ∧ t.IsComplete = true ∧ t.Index = idx ∧
      ∀ e ∈ pre, e.IsComplete = false ∧ e.Index = idx := by
  cases sc with
  | factoryFail e =>
    exact ⟨[], _, h, rfl, rfl, by simp⟩
  | stdoutPipeFail e =>
    exact ⟨[], _, h, rfl, rfl, by simp⟩
  | stderrPipeFail e =>
    exact ⟨[], _, h, rfl, rfl, by simp⟩
  | startFail e =>
    exact ⟨[], _, h, rfl, rfl, by simp⟩
  | runs stdoutInput stdoutErr stderrInput stderrErr sd =>
    obtain ⟨merged, pre, hm, hp, rfl⟩ := h
    refine ⟨pre, mkTerminal idx (shutdownWaitErr sd), rfl, rfl, rfl, ?_⟩
    intro e he
    rcases interleaving_mem hp e he with hme | hse
    · rcases interleaving_mem hm e hme with h1 | h2
      · exact streamReaderTrace_events stdoutInput stdoutErr idx e h1
      · exact streamReaderTrace_events stderrInput stderrErr idx e h2
    · exact shutdownPreTrace_events idx sd e hse

lemma runProcessTrace_index (idx : Int) (sc : RunScenario) (trace : List ProcessLine)
    (h : RunProcessTrace idx sc trace) : ∀ e ∈ trace, e.Index = idx := by
  obtain ⟨pre, t, rfl, _, hidx, hpre⟩ := runProcessTrace_shape idx sc trace h
  intro e he
  rcases List.mem_append.mp he with he | he
  · exact (hpre e he).2
  · rw [List.mem_singleton.mp he]
    exact hidx

/-- Claim C2: in any outward event stream of `Engine.Run`, the events of
each process index `k` are zero or more Line events followed by exactly
one Terminal event, and nothing for that index follows the Terminal
event; this holds for every exit path of `runProcess` — factory failure,
stdout/stderr pipe failure, start failure, clean exit, graceful shutdown,
forced kill, and cancellation with the process already gone. -/
theorem c2_terminal_last (scs : List RunScenario) (trace : List ProcessLine) (k : Nat)
    (h : EngineRunTrace scs trace) (hk : k < scs.length) :
    ∃ pre t, trace.filter (fun e => e.Index == (k : Int)) = pre ++ [t] ∧
      t.IsComplete = true ∧ t.Index = (k : Int) ∧
      ∀ e ∈ pre, e.IsComplete = false ∧ e.Index = (k : Int) := by
  obtain ⟨taskTraces, hlen, htasks, hmulti⟩ := h
  have hk2 : k < taskTraces.length := hlen ▸ hk
  have hfilter := multiInterleaving_filter (fun e => e.Index == (k : Int)) hmulti k hk2
    (by
      intro e he
      have := runProcessTrace_index (k : Int) _ _ (htasks k hk hk2) e he
      simp [this])
    (by
      intro j hj hjk e he
      have hjlen : j < scs.length := hlen ▸ hj
      have := runProcessTrace_index (j : Int) _ _ (htasks j hjlen hj) e he
      simp only [this, beq_eq_false_iff_ne, ne_eq, Int.natCast_inj]
      exact hjk)
  rw [hfilter]
  exact runProcessTrace_shape (k : Int) _ _ (htasks k hk hk2)

theorem c2_terminal_last_witness :
    ∃ pre t,
      ([mkTerminal 0 (some (wrapErr "create command" (.msg "boom")))].filter
          (fun e => e.Index == ((0 : Nat) : Int))) = pre ++ [t] ∧
      t.IsComplete = true ∧ t.Index = ((0 : Nat) : Int) ∧
      ∀ e ∈ pre, e.IsComplete = false ∧ e.Index = ((0 : Nat) : Int) := by
  refine c2_terminal_last [.factoryFail (.msg "boom")]
    [mkTerminal 0 (some (wrapErr "create command" (.msg "boom")))] 0 ?_ (by decide)
  refine ⟨[[mkTerminal 0 (some (wrapErr "create command" (.msg "boom")))]], rfl, ?_, ?_⟩
  · intro j hj hj2
    have hj0 : j = 0 := by
      simp at hj
      exact hj
    subst hj0
    rfl
  · exact .cons (.left .nil) .nil
